import Mathlib

/-!
Shallow embedding of `src/bpe_tokenizer.c` (a BPE subword-vocabulary trainer).

Wide strings (`wchar_t *`) are modelled as `List Char`; the fixed-size C
buffers are modelled as unbounded lists (all runs considered stay far below
the C capacities), except for the 256-slot `symbols` array in the counting
phase of `bpe_subword_merge`, which the C code caps explicitly and which is
therefore modelled explicitly with `List.take 256`.  Machine integers are
`Nat`; the `unsigned int` overflow in the djb2 hash is modelled with an
explicit `% 2 ^ 32`.  The pthread mutexes only serialize single increments
and the shipped program is single-threaded, so the hash map is modelled as
the pure partition table it protects.
-/

def HASH_SIZE : Nat := 10000

def MAX_VOCAB_SIZE : Nat := 50000

/-- Wide string (`wchar_t *`). -/
abbrev WStr := List Char

/-- Structure `VocabEntry` from the C source: token, id, frequency. -/
structure VocabEntry where
  token : WStr
  id : Nat
  freq : Nat
deriving DecidableEq, Repr

/-- Structure `BPE_Pair` from the C source: joined pair key, count, tag id.
The `next` pointer becomes the list structure of each bucket. -/
structure BPE_Pair where
  pair : WStr
  count : Nat
  id : Nat
deriving DecidableEq, Repr

/-- djb2 hash of `hash()` in the C source: `h = h*33 + c` in `unsigned int`
arithmetic, then `% HASH_SIZE`. -/
def hashW (pair : WStr) : Nat :=
  (pair.foldl (fun h c => (h * 33 + c.toNat) % 2 ^ 32) 5381) % HASH_SIZE

/-- Type `BPE_HashMap`: the partition table; index `i` holds the chain hanging off
`map->table[i]`, head first. -/
abbrev BPE_HashMap := Nat → List BPE_Pair

/-- Function `create_bpe_hashmap()`: all buckets empty. -/
def create_bpe_hashmap : BPE_HashMap := fun _ => []

/-- The scan-and-increment loop of `add_pair`: walk the chain; at the first
entry whose key equals `p`, increment its count in place; `none` when no
entry matches. -/
def incrInChain (p : WStr) : List BPE_Pair → Option (List BPE_Pair)
  | [] => none
  | e :: rest =>
    if e.pair = p then some ({ e with count := e.count + 1 } :: rest)
    else (incrInChain p rest).map (fun l => e :: l)

/-- Bucket update of `add_pair`: increment the matching entry if present,
otherwise push a fresh entry with count 1 at the head of the chain. -/
def addToBucket (p : WStr) (tag : Nat) (bucket : List BPE_Pair) : List BPE_Pair :=
  match incrInChain p bucket with
  | some bucket' => bucket'
  | none => { pair := p, count := 1, id := tag } :: bucket

/-- Function `add_pair(map, pair, id)` from the C source. -/
def add_pair (map : BPE_HashMap) (p : WStr) (tag : Nat) : BPE_HashMap :=
  fun j => if j = hashW p then addToBucket p tag (map (hashW p)) else map j

/-- Inner chain walk of `find_most_frequent_pair`: update the running best
whenever `entry->count > *best_count`. -/
def scanChain (acc : WStr × Nat) : List BPE_Pair → WStr × Nat
  | [] => acc
  | e :: rest => scanChain (if acc.2 < e.count then (e.pair, e.count) else acc) rest

/-- Function `find_most_frequent_pair(map, best_pair, best_count)`: best starts as
`("", 0)`; partitions are scanned in increasing index, each chain from its
head. -/
def find_most_frequent_pair (map : BPE_HashMap) : WStr × Nat :=
  (List.range HASH_SIZE).foldl (fun acc i => scanChain acc (map i)) ([], 0)

/-- Accumulator-passing core of `wcstok(s, L" ")` splitting: `cur` holds the
current symbol reversed. -/
def splitAux : WStr → WStr → List WStr
  | [], cur => if cur = [] then [] else [cur.reverse]
  | c :: rest, cur =>
    if c = ' ' then
      if cur = [] then splitAux rest [] else cur.reverse :: splitAux rest []
    else splitAux rest (c :: cur)

/-- Split a surface form on spaces into its symbols, as the `wcstok` loops in
`bpe_subword_merge` do: maximal non-empty runs of non-space characters. -/
def splitSymbols (s : WStr) : List WStr := splitAux s []

/-- The key built by `swprintf(pair, MAX_PAIR_LEN, ...)`: the two symbols joined by one space. -/
def pairKey (a b : WStr) : WStr := a ++ ' ' :: b

/-- The keys of the adjacent pairs `(symbols[j], symbols[j+1])`,
`j = 0 .. symbol_count-2`, in order. -/
def adjacentPairs (syms : List WStr) : List WStr :=
  (syms.zip syms.tail).map (fun q => pairKey q.1 q.2)

/-- The `for (k = 0; k < freq; k++) add_pair(...)` loop: add the same key
`n` times. -/
def addN (map : BPE_HashMap) (p : WStr) (tag : Nat) : Nat → BPE_HashMap
  | 0 => map
  | n + 1 => addN (add_pair map p tag) p tag n

/-- Counting contribution of vocabulary entry `e` at index `i`: split into at
most 256 symbols (the C code stops collecting at `symbol_count < 256`), then
add every adjacent pair key `freq` times, tagged with the entry index. -/
def count_entry (map : BPE_HashMap) (i : Nat) (e : VocabEntry) : BPE_HashMap :=
  (adjacentPairs ((splitSymbols e.token).take 256)).foldl
    (fun m p => addN m p i e.freq) map

/-- The full counting pass of one `bpe_subword_merge` iteration, over a fresh
table, entries in store order. -/
def count_pass (voc : List VocabEntry) : BPE_HashMap :=
  voc.enum.foldl (fun m ie => count_entry m ie.1 ie.2) create_bpe_hashmap

/-- The rewrite loop of `bpe_subword_merge` on one symbol sequence: whenever
the next two symbols joined equal `best`, emit their fusion and advance past
both; otherwise emit the current symbol and advance by one. -/
def merge_symbols (best : WStr) : List WStr → List WStr
  | [] => []
  | [s] => [s]
  | s :: next :: rest =>
    if pairKey s next = best then (s ++ next) :: merge_symbols best rest
    else s :: merge_symbols best (next :: rest)

/-- Rebuild a surface form from symbols, space-separated (the
`if (!first) wcscat(new_token, L" ")` discipline). -/
def joinSymbols : List WStr → WStr
  | [] => []
  | [s] => s
  | s :: rest => s ++ ' ' :: joinSymbols rest

/-- One entry of the merge-application pass: only the token is rewritten. -/
def merge_entry (best : WStr) (e : VocabEntry) : VocabEntry :=
  { e with token := joinSymbols (merge_symbols best (splitSymbols e.token)) }

/-- The merge-application pass over the whole vocabulary. -/
def merge_pass (best : WStr) (voc : List VocabEntry) : List VocabEntry :=
  voc.map (merge_entry best)

/-- Function `bpe_subword_merge(num_merges)`: up to `num_merges` iterations of
count → select → merge; break when the best count is `< 1`. -/
def bpe_subword_merge (num_merges : Nat) (voc : List VocabEntry) : List VocabEntry :=
  match num_merges with
  | 0 => voc
  | n + 1 =>
    let r := find_most_frequent_pair (count_pass voc)
    if r.2 < 1 then voc
    else bpe_subword_merge n (merge_pass r.1 voc)

/-- Instrumented run of `bpe_subword_merge`: also returns the number of merge
iterations actually applied. -/
def bpe_run (num_merges : Nat) (voc : List VocabEntry) : List VocabEntry × Nat :=
  match num_merges with
  | 0 => (voc, 0)
  | n + 1 =>
    let r := find_most_frequent_pair (count_pass voc)
    if r.2 < 1 then (voc, 0)
    else
      let s := bpe_run n (merge_pass r.1 voc)
      (s.1, s.2 + 1)

/-- The scan-and-increment loop of `add_to_vocabulary`: increment the
frequency of the first entry whose token equals `t`; `none` when absent. -/
def incrFreq (t : WStr) : List VocabEntry → Option (List VocabEntry)
  | [] => none
  | e :: rest =>
    if e.token = t then some ({ e with freq := e.freq + 1 } :: rest)
    else (incrFreq t rest).map (fun l => e :: l)

/-- Function `add_to_vocabulary(token)`: increment an existing entry, else append a
fresh entry with `id = vocab_size`, `freq = 1` — but only while
`vocab_size < MAX_VOCAB_SIZE`. -/
def add_to_vocabulary (voc : List VocabEntry) (t : WStr) : List VocabEntry :=
  match incrFreq t voc with
  | some voc' => voc'
  | none =>
    if voc.length < MAX_VOCAB_SIZE then
      voc ++ [{ token := t, id := voc.length, freq := 1 }]
    else voc

/-- All table entries in the deterministic traversal order of
`find_most_frequent_pair`: partitions in increasing index, chains head
first. -/
def allEntries (map : BPE_HashMap) : List BPE_Pair :=
  (List.range HASH_SIZE).flatMap map

/-- The entries holding a given key, in traversal order. -/
def keyEntries (map : BPE_HashMap) (p : WStr) : List BPE_Pair :=
  (allEntries map).filter (fun e => e.pair = p)

/-- How many entries hold a given key. -/
def keyCount (map : BPE_HashMap) (p : WStr) : Nat := (keyEntries map p).length

/-- The total count recorded in the table for a given key. -/
def recordedCount (map : BPE_HashMap) (p : WStr) : Nat :=
  ((keyEntries map p).map (fun e => e.count)).sum

/-- Total number of entries in the table. -/
def numEntries (map : BPE_HashMap) : Nat := (allEntries map).length

/-- First entry with the given key along a chain. -/
def lookupChain (p : WStr) : List BPE_Pair → Option BPE_Pair
  | [] => none
  | e :: rest => if e.pair = p then some e else lookupChain p rest

/-- Table lookup at the key's own partition. -/
def lookupPair (map : BPE_HashMap) (p : WStr) : Option BPE_Pair :=
  lookupChain p (map (hashW p))

/-- Number of adjacent occurrences of the symbol pair `(A, B)` in a symbol
sequence. -/
def countAdjOcc (A B : WStr) (syms : List WStr) : Nat :=
  (syms.zip syms.tail).countP (fun q => decide (q.1 = A) && decide (q.2 = B))

/-- Chain-level total count recorded for a key. -/
def chainSum (q : WStr) (l : List BPE_Pair) : Nat :=
  ((l.filter (fun e => e.pair = q)).map (fun e => e.count)).sum

/-- How many times the merge rewrite fires on one symbol sequence. -/
def mergeFireCount (best : WStr) : List WStr → Nat
  | [] => 0
  | [_] => 0
  | s :: next :: rest =>
    if pairKey s next = best then 1 + mergeFireCount best rest
    else mergeFireCount best (next :: rest)

/-- Structural well-formedness of the table: every entry sits in the
partition its key hashes to, and no chain holds two entries with the same
key. -/
def TableWF (map : BPE_HashMap) : Prop :=
  ∀ i, (∀ e ∈ map i, hashW e.pair = i) ∧ ((map i).map (fun e => e.pair)).Nodup

/-- Tables reachable by the program: built from the fresh table by
`add_pair` calls. -/
inductive Reachable : BPE_HashMap → Prop
  | init : Reachable create_bpe_hashmap
  | step (map : BPE_HashMap) (p : WStr) (tag : Nat) :
      Reachable map → Reachable (add_pair map p tag)

/-- Segment of the partition traversal: the concatenation of the buckets with
indices `s, s+1, ..., s+n-1`. -/
def bucketsCat (m : BPE_HashMap) (s n : Nat) : List BPE_Pair :=
  (List.range' s n).flatMap m

/-- The spec's end-to-end scenario vocabulary
`{"l o w": 5, "l o w e r": 2, "n e w e s t": 6, "w i d e s t": 3}`. -/
def V0 : List VocabEntry :=
  [⟨['l', ' ', 'o', ' ', 'w'], 0, 5⟩,
   ⟨['l', ' ', 'o', ' ', 'w', ' ', 'e', ' ', 'r'], 1, 2⟩,
   ⟨['n', ' ', 'e', ' ', 'w', ' ', 'e', ' ', 's', ' ', 't'], 2, 6⟩,
   ⟨['w', ' ', 'i', ' ', 'd', ' ', 'e', ' ', 's', ' ', 't'], 3, 3⟩]

/-- The eleven distinct pair keys the counting pass emits for `V0`. -/
def K0 : List WStr :=
  [['l', ' ', 'o'], ['o', ' ', 'w'], ['w', ' ', 'e'], ['e', ' ', 'r'],
   ['n', ' ', 'e'], ['e', ' ', 'w'], ['e', ' ', 's'], ['s', ' ', 't'],
   ['w', ' ', 'i'], ['i', ' ', 'd'], ['d', ' ', 'e']]

/-- The bucket indices of `K0`'s keys, in increasing order. -/
def H0 : List Nat :=
  [2498, 3404, 5776, 7054, 7745, 7749, 7944, 8156, 8157, 8161, 9051]

/-- A one-entry vocabulary whose only pair occurs once. -/
def voc_ab : List VocabEntry := [⟨['a', ' ', 'b'], 0, 1⟩]

/-- A small reachable table: one `add_pair` call on the fresh table. -/
def mW : BPE_HashMap := add_pair create_bpe_hashmap ['a'] 0

/-- An entry whose surface form splits into 257 symbols: 256 symbols `a`
followed by one symbol `b`. -/
def e257 : VocabEntry :=
  ⟨joinSymbols (List.replicate 256 ['a'] ++ [['b']]), 0, 1⟩

/-- A vocabulary already at the configured maximum size. -/
def fullVoc : List VocabEntry :=
  List.replicate MAX_VOCAB_SIZE ⟨['a'], 0, 1⟩

/-! ### Bucket locality of `add_pair` and the counting pass -/

lemma add_pair_apply_ne (m : BPE_HashMap) (p : WStr) (tag j : Nat)
    (h : j ≠ hashW p) : add_pair m p tag j = m j := by
  simp [add_pair, h]

lemma add_pair_apply_eq (m : BPE_HashMap) (p : WStr) (tag : Nat) :
    add_pair m p tag (hashW p) = addToBucket p tag (m (hashW p)) := by
  simp [add_pair]

lemma addN_apply_ne (m : BPE_HashMap) (p : WStr) (tag n j : Nat)
    (h : j ≠ hashW p) : addN m p tag n j = m j := by
  induction n generalizing m with
  | zero => rfl
  | succ n ih => rw [addN, ih, add_pair_apply_ne _ _ _ _ h]

lemma foldl_addN_apply_ne (l : List WStr) (m : BPE_HashMap) (tag n j : Nat)
    (h : ∀ p ∈ l, j ≠ hashW p) :
    (l.foldl (fun m p => addN m p tag n) m) j = m j := by
  induction l generalizing m with
  | nil => rfl
  | cons p rest ih =>
    rw [List.foldl_cons, ih _ (fun q hq => h q (List.mem_cons_of_mem _ hq)),
      addN_apply_ne _ _ _ _ _ (h p (List.mem_cons_self _ _))]

lemma count_entry_apply_ne (m : BPE_HashMap) (i : Nat) (e : VocabEntry) (j : Nat)
    (h : ∀ p ∈ adjacentPairs ((splitSymbols e.token).take 256), j ≠ hashW p) :
    count_entry m i e j = m j :=
  foldl_addN_apply_ne _ _ _ _ _ h

lemma foldl_count_entry_apply_ne (l : List (Nat × VocabEntry)) (m : BPE_HashMap)
    (j : Nat)
    (h : ∀ ie ∈ l, ∀ p ∈ adjacentPairs ((splitSymbols ie.2.token).take 256),
      j ≠ hashW p) :
    (l.foldl (fun m ie => count_entry m ie.1 ie.2) m) j = m j := by
  induction l generalizing m with
  | nil => rfl
  | cons ie rest ih =>
    rw [List.foldl_cons, ih _ (fun q hq => h q (List.mem_cons_of_mem _ hq)),
      count_entry_apply_ne _ _ _ _ (h ie (List.mem_cons_self _ _))]

lemma count_pass_support (voc : List VocabEntry) (j : Nat)
    (h : ∀ e ∈ voc, ∀ p ∈ adjacentPairs ((splitSymbols e.token).take 256),
      j ≠ hashW p) :
    count_pass voc j = [] := by
  have : ∀ ie ∈ voc.enum, ∀ p ∈ adjacentPairs ((splitSymbols ie.2.token).take 256),
      j ≠ hashW p := by
    intro ie hie
    have h2 : ie.2 ∈ voc := by
      have := List.mem_map_of_mem Prod.snd hie
      rwa [List.enum_map_snd] at this
    exact h ie.2 h2
  rw [count_pass, foldl_count_entry_apply_ne _ _ _ this]
  rfl

/-! ### Sparse evaluation of the partition traversal -/

lemma bucketsCat_zero (m : BPE_HashMap) (s : Nat) : bucketsCat m s 0 = [] := rfl

lemma bucketsCat_succ (m : BPE_HashMap) (s n : Nat) :
    bucketsCat m s (n + 1) = m s ++ bucketsCat m (s + 1) n := by
  rw [bucketsCat, List.range'_succ, List.flatMap_cons]
  rfl

lemma bucketsCat_stop (m : BPE_HashMap) (s n : Nat)
    (h : ∀ i, s ≤ i → i < s + n → m i = []) : bucketsCat m s n = [] := by
  induction n generalizing s with
  | zero => rfl
  | succ n ih =>
    rw [bucketsCat_succ, h s le_rfl (by omega), List.nil_append]
    exact ih (s + 1) (fun i h1 h2 => h i (by omega) (by omega))

lemma bucketsCat_skip (m : BPE_HashMap) (s n j : Nat) (h1 : s ≤ j)
    (h2 : j < s + n) (h : ∀ i, s ≤ i → i < j → m i = []) :
    bucketsCat m s n = m j ++ bucketsCat m (j + 1) (s + n - (j + 1)) := by
  induction n generalizing s with
  | zero => exact absurd h2 (by omega)
  | succ n ih =>
    rcases Nat.eq_or_lt_of_le h1 with rfl | hlt
    · rw [bucketsCat_succ]
      congr 2
      omega
    · rw [bucketsCat_succ, h s le_rfl hlt, List.nil_append,
        ih (s + 1) (by omega) (by omega) (fun i ha hb => h i (by omega) hb)]
      congr 2
      omega

lemma bucketsCat_sparse (m : BPE_HashMap) (js : List Nat) :
    ∀ s n, js.Pairwise (· < ·) → (∀ j ∈ js, s ≤ j ∧ j < s + n) →
    (∀ i, s ≤ i → i < s + n → i ∉ js → m i = []) →
    bucketsCat m s n = js.flatMap m := by
  induction js with
  | nil =>
    intro s n _ _ h
    rw [List.flatMap_nil]
    exact bucketsCat_stop _ _ _ (fun i h1 h2 => h i h1 h2 (List.not_mem_nil i))
  | cons j rest ih =>
    intro s n hpw hin h
    have hj := hin j (List.mem_cons_self _ _)
    have hrest : ∀ x ∈ rest, j < x := fun x hx => (List.pairwise_cons.mp hpw).1 x hx
    rw [bucketsCat_skip m s n j hj.1 hj.2 (fun i ha hb => by
      refine h i ha (by omega) ?_
      intro hmem
      rcases List.mem_cons.mp hmem with rfl | hm
      · omega
      · exact absurd (hrest i hm) (by omega)), List.flatMap_cons]
    congr 1
    refine ih (j + 1) (s + n - (j + 1)) (List.pairwise_cons.mp hpw).2 ?_ ?_
    · intro x hx
      refine ⟨by have := hrest x hx; omega, ?_⟩
      have := (hin x (List.mem_cons_of_mem _ hx)).2
      omega
    · intro i ha hb hmem
      refine h i (by omega) (by omega) ?_
      intro hmem2
      rcases List.mem_cons.mp hmem2 with rfl | hm
      · omega
      · exact hmem hm

lemma allEntries_sparse (m : BPE_HashMap) (js : List Nat)
    (hpw : js.Pairwise (· < ·)) (hin : ∀ j ∈ js, j < HASH_SIZE)
    (h : ∀ i, i ∉ js → m i = []) :
    allEntries m = js.flatMap m := by
  rw [allEntries, List.range_eq_range', show List.range' 0 HASH_SIZE =
    List.range' 0 HASH_SIZE 1 from rfl, ← bucketsCat]
  exact bucketsCat_sparse m js 0 HASH_SIZE hpw
    (fun j hj => ⟨Nat.zero_le _, by have := hin j hj; omega⟩)
    (fun i _ _ hi => h i hi)

/-! ### The traversal view of `find_most_frequent_pair` -/

lemma scanChain_append (acc : WStr × Nat) (l1 l2 : List BPE_Pair) :
    scanChain acc (l1 ++ l2) = scanChain (scanChain acc l1) l2 := by
  induction l1 generalizing acc with
  | nil => rfl
  | cons e rest ih => rw [List.cons_append, scanChain, scanChain, ih]

lemma foldl_scan_eq_flatMap (l : List Nat) (m : BPE_HashMap) (acc : WStr × Nat) :
    l.foldl (fun a i => scanChain a (m i)) acc = scanChain acc (l.flatMap m) := by
  induction l generalizing acc with
  | nil => rfl
  | cons i rest ih =>
    rw [List.foldl_cons, ih, List.flatMap_cons, scanChain_append]

lemma find_eq_scan_allEntries (m : BPE_HashMap) :
    find_most_frequent_pair m = scanChain ([], 0) (allEntries m) := by
  rw [find_most_frequent_pair, allEntries, foldl_scan_eq_flatMap]

/-! ### Concrete evaluation of the scenario table -/

lemma V0_keys : ∀ e ∈ V0,
    ∀ p ∈ adjacentPairs ((splitSymbols e.token).take 256), p ∈ K0 := by decide

lemma K0_hashes : ∀ p ∈ K0, hashW p ∈ H0 := by decide

lemma count_pass_V0_support : ∀ j, j ∉ H0 → count_pass V0 j = [] := by
  intro j hj
  apply count_pass_support
  intro e he p hp heq
  refine hj ?_
  rw [heq]
  exact K0_hashes p (V0_keys e he p hp)

lemma allEntries_count_pass_V0 :
    allEntries (count_pass V0) =
      [⟨['i', ' ', 'd'], 3, 3⟩, ⟨['s', ' ', 't'], 9, 2⟩, ⟨['l', ' ', 'o'], 7, 0⟩,
       ⟨['d', ' ', 'e'], 3, 3⟩, ⟨['w', ' ', 'e'], 8, 1⟩, ⟨['w', ' ', 'i'], 3, 3⟩,
       ⟨['n', ' ', 'e'], 6, 2⟩, ⟨['e', ' ', 'r'], 2, 1⟩, ⟨['e', ' ', 's'], 9, 2⟩,
       ⟨['e', ' ', 'w'], 6, 2⟩, ⟨['o', ' ', 'w'], 7, 0⟩] := by
  rw [allEntries_sparse _ H0 (by decide) (by decide) count_pass_V0_support]
  decide

lemma find_count_pass_V0 :
    find_most_frequent_pair (count_pass V0) = (['s', ' ', 't'], 9) := by
  rw [find_eq_scan_allEntries, allEntries_count_pass_V0]
  decide

lemma bpe_V0 : bpe_subword_merge 1 V0 =
    [⟨['l', ' ', 'o', ' ', 'w'], 0, 5⟩,
     ⟨['l', ' ', 'o', ' ', 'w', ' ', 'e', ' ', 'r'], 1, 2⟩,
     ⟨['n', ' ', 'e', ' ', 'w', ' ', 'e', ' ', 's', 't'], 2, 6⟩,
     ⟨['w', ' ', 'i', ' ', 'd', ' ', 'e', ' ', 's', 't'], 3, 3⟩] := by
  have h1 : bpe_subword_merge 1 V0 =
      (let r := find_most_frequent_pair (count_pass V0)
       if r.2 < 1 then V0 else bpe_subword_merge 0 (merge_pass r.1 V0)) := rfl
  rw [h1, find_count_pass_V0]
  decide

/-- Claim C1 (counterexample): on the scenario vocabulary the pair counts of
`("e","s")` and `("s","t")` tie at 9, and the partition-order tie-break picks
`("s","t")` (bucket 3404 precedes bucket 8157), so the loop does not select
`("e","s")` and does not produce the rewrite the claim states. -/
theorem bpe_scenario_claim_cex :
    find_most_frequent_pair (count_pass V0) ≠ (['e', ' ', 's'], 9) ∧
    bpe_subword_merge 1 V0 ≠
      [⟨['l', ' ', 'o', ' ', 'w'], 0, 5⟩,
       ⟨['l', ' ', 'o', ' ', 'w', ' ', 'e', ' ', 'r'], 1, 2⟩,
       ⟨['n', ' ', 'e', ' ', 'w', ' ', 'e', 's', ' ', 't'], 2, 6⟩,
       ⟨['w', ' ', 'i', ' ', 'd', ' ', 'e', 's', ' ', 't'], 3, 3⟩] := by
  rw [find_count_pass_V0, bpe_V0]
  decide

/-- Claim C1 (amended): for the scenario vocabulary with `maxMerges = 1`,
the counts of `("e","s")` and `("s","t")` both equal 9 and the induction loop
selects `("s","t")` — the tie-break follows partition-then-chain traversal
order — and rewrites the store to
`{"l o w": 5, "l o w e r": 2, "n e w e st": 6, "w i d e st": 3}`. -/
theorem bpe_scenario_amended :
    find_most_frequent_pair (count_pass V0) = (['s', ' ', 't'], 9) ∧
    bpe_subword_merge 1 V0 =
      [⟨['l', ' ', 'o', ' ', 'w'], 0, 5⟩,
       ⟨['l', ' ', 'o', ' ', 'w', ' ', 'e', ' ', 'r'], 1, 2⟩,
       ⟨['n', ' ', 'e', ' ', 'w', ' ', 'e', ' ', 's', 't'], 2, 6⟩,
       ⟨['w', ' ', 'i', ' ', 'd', ' ', 'e', ' ', 's', 't'], 3, 3⟩] :=
  ⟨find_count_pass_V0, bpe_V0⟩

/-! ### The merge threshold -/

lemma voc_ab_keys : ∀ e ∈ voc_ab,
    ∀ p ∈ adjacentPairs ((splitSymbols e.token).take 256),
      p ∈ [(['a', ' ', 'b'] : WStr)] := by decide

lemma ab_key_hashes : ∀ p ∈ [(['a', ' ', 'b'] : WStr)], hashW p ∈ [3784] := by
  decide

lemma count_pass_voc_ab_support : ∀ j, j ∉ [3784] → count_pass voc_ab j = [] := by
  intro j hj
  apply count_pass_support
  intro e he p hp heq
  refine hj ?_
  rw [heq]
  exact ab_key_hashes p (voc_ab_keys e he p hp)

lemma allEntries_count_pass_voc_ab :
    allEntries (count_pass voc_ab) = [⟨['a', ' ', 'b'], 1, 0⟩] := by
  rw [allEntries_sparse (count_pass voc_ab) [3784] (by decide) (by decide)
    count_pass_voc_ab_support]
  decide

lemma find_count_pass_voc_ab :
    find_most_frequent_pair (count_pass voc_ab) = (['a', ' ', 'b'], 1) := by
  rw [find_eq_scan_allEntries, allEntries_count_pass_voc_ab]
  decide

lemma find_create : find_most_frequent_pair create_bpe_hashmap = ([], 0) := by
  rw [find_eq_scan_allEntries,
    allEntries_sparse create_bpe_hashmap [] (by decide) (by decide)
      (fun i _ => rfl)]
  rfl

/-- Claim C2 (counterexample): on the store `{"a b": 1}` the best pair count
is 1, which is below 2, yet the loop applies the merge (the code's break
condition is `best_count < 1`, not `< 2`): one merge iteration runs and the
entry is rewritten to `"ab"`. -/
theorem bpe_threshold_cex :
    (find_most_frequent_pair (count_pass voc_ab)).2 = 1 ∧
    (find_most_frequent_pair (count_pass voc_ab)).2 < 2 ∧
    bpe_run 1 voc_ab = ([⟨['a', 'b'], 0, 1⟩], 1) := by
  refine ⟨by rw [find_count_pass_voc_ab], by rw [find_count_pass_voc_ab]; decide, ?_⟩
  have h1 : bpe_run 1 voc_ab =
      if (find_most_frequent_pair (count_pass voc_ab)).2 < 1 then (voc_ab, 0)
      else ((bpe_run 0 (merge_pass (find_most_frequent_pair (count_pass voc_ab)).1 voc_ab)).1,
            (bpe_run 0 (merge_pass (find_most_frequent_pair (count_pass voc_ab)).1 voc_ab)).2 + 1) := rfl
  rw [h1, find_count_pass_voc_ab]
  decide

/-- Claim C2 (amended): for every store and every `maxMerges`, the induction
loop performs at most `maxMerges` merge iterations, and it never applies a
merge in an iteration where the best pair's count returned by `findMax` is
less than 1: it stops as soon as the best count is below 1 (the code's
threshold is 1, not the claimed 2).  The instrumented run agrees with
`bpe_subword_merge`. -/
theorem bpe_run_bounds (n : Nat) (voc : List VocabEntry) :
    (bpe_run n voc).1 = bpe_subword_merge n voc ∧
    (bpe_run n voc).2 ≤ n ∧
    ((find_most_frequent_pair (count_pass voc)).2 < 1 → bpe_run n voc = (voc, 0)) := by
  induction n generalizing voc with
  | zero => exact ⟨rfl, le_rfl, fun _ => rfl⟩
  | succ n ih =>
    have hrun : bpe_run (n + 1) voc =
        if (find_most_frequent_pair (count_pass voc)).2 < 1 then (voc, 0)
        else ((bpe_run n (merge_pass (find_most_frequent_pair (count_pass voc)).1 voc)).1,
              (bpe_run n (merge_pass (find_most_frequent_pair (count_pass voc)).1 voc)).2 + 1) := rfl
    have hbpe : bpe_subword_merge (n + 1) voc =
        if (find_most_frequent_pair (count_pass voc)).2 < 1 then voc
        else bpe_subword_merge n (merge_pass (find_most_frequent_pair (count_pass voc)).1 voc) := rfl
    by_cases h : (find_most_frequent_pair (count_pass voc)).2 < 1
    · rw [hrun, hbpe, if_pos h, if_pos h]
      exact ⟨rfl, Nat.zero_le _, fun _ => rfl⟩
    · rw [hrun, hbpe, if_neg h, if_neg h]
      refine ⟨(ih _).1, ?_, fun hc => absurd hc h⟩
      have hle := (ih (merge_pass (find_most_frequent_pair (count_pass voc)).1 voc)).2.1
      omega

/-- Witness for `bpe_run_bounds` at the empty store with `maxMerges = 1`:
the best count is 0, so no merge is applied. -/
theorem bpe_run_bounds_witness :
    (bpe_run 1 ([] : List VocabEntry)).1 = bpe_subword_merge 1 [] ∧
    (bpe_run 1 ([] : List VocabEntry)).2 ≤ 1 ∧
    bpe_run 1 ([] : List VocabEntry) = ([], 0) := by
  obtain ⟨h1, h2, h3⟩ := bpe_run_bounds 1 []
  refine ⟨h1, h2, h3 ?_⟩
  rw [show count_pass ([] : List VocabEntry) = create_bpe_hashmap from rfl,
    find_create]
  decide

/-! ### Characterization of the best-pair scan -/

lemma scanChain_spec (l : List BPE_Pair) (acc : WStr × Nat) :
    (scanChain acc l = acc ∧ ∀ e ∈ l, e.count ≤ acc.2) ∨
    (∃ pre e post, l = pre ++ e :: post ∧ scanChain acc l = (e.pair, e.count) ∧
      acc.2 < e.count ∧ (∀ x ∈ l, x.count ≤ e.count) ∧
      ∀ x ∈ pre, x.count < e.count) := by
  induction l generalizing acc with
  | nil => exact Or.inl ⟨rfl, by simp⟩
  | cons x rest ih =>
    by_cases hx : acc.2 < x.count
    · have hstep : scanChain acc (x :: rest) = scanChain (x.pair, x.count) rest := by
        simp only [scanChain]
        rw [if_pos hx]
      rcases ih (x.pair, x.count) with ⟨heq, hle⟩ |
        ⟨pre, e, post, hsplit, hval, hgt, hmax, hpre⟩
      · refine Or.inr ⟨[], x, rest, rfl, by rw [hstep, heq], hx, ?_, by simp⟩
        intro y hy
        rcases List.mem_cons.mp hy with rfl | hm
        · exact le_rfl
        · exact hle y hm
      · refine Or.inr ⟨x :: pre, e, post, by rw [hsplit, List.cons_append], by rw [hstep, hval],
          lt_trans hx hgt, ?_, ?_⟩
        · intro y hy
          rcases List.mem_cons.mp hy with rfl | hm
          · exact le_of_lt hgt
          · exact hmax y hm
        · intro y hy
          rcases List.mem_cons.mp hy with rfl | hm
          · exact hgt
          · exact hpre y hm
    · have hstep : scanChain acc (x :: rest) = scanChain acc rest := by
        simp only [scanChain]
        rw [if_neg hx]
      rcases ih acc with ⟨heq, hle⟩ |
        ⟨pre, e, post, hsplit, hval, hgt, hmax, hpre⟩
      · refine Or.inl ⟨by rw [hstep, heq], ?_⟩
        intro y hy
        rcases List.mem_cons.mp hy with rfl | hm
        · omega
        · exact hle y hm
      · refine Or.inr ⟨x :: pre, e, post, by rw [hsplit, List.cons_append], by rw [hstep, hval],
          hgt, ?_, ?_⟩
        · intro y hy
          rcases List.mem_cons.mp hy with rfl | hm
          · have : y.count ≤ acc.2 := by omega
            omega
          · exact hmax y hm
        · intro y hy
          rcases List.mem_cons.mp hy with rfl | hm
          · omega
          · exact hpre y hm

lemma allEntries_create : allEntries create_bpe_hashmap = [] := by
  rw [allEntries_sparse create_bpe_hashmap [] (by decide) (by decide)
    (fun i _ => rfl)]
  rfl

lemma mW_support : ∀ j, j ∉ [7670] → mW j = [] := by
  intro j hj
  rw [mW, add_pair_apply_ne]
  · rfl
  · intro h
    refine hj ?_
    rw [h]
    decide

lemma allEntries_mW : allEntries mW = [⟨['a'], 1, 0⟩] := by
  rw [allEntries_sparse mW [7670] (by decide) (by decide) mW_support]
  decide

/-- Claim C4: on a table all of whose entries have positive counts — which
every reachable table satisfies, since entries are created with count 1 and
only ever incremented — `find_most_frequent_pair` returns `("", 0)` on the
empty table, and otherwise returns the pair and count of an entry of maximal
count that is the first such entry in partition-then-chain traversal order
(every entry strictly before it has a strictly smaller count). -/
theorem find_most_frequent_pair_spec (map : BPE_HashMap)
    (hpos : ∀ e ∈ allEntries map, 0 < e.count) :
    (allEntries map = [] → find_most_frequent_pair map = ([], 0)) ∧
    (allEntries map ≠ [] →
      ∃ pre e post, allEntries map = pre ++ e :: post ∧
        find_most_frequent_pair map = (e.pair, e.count) ∧
        (∀ x ∈ allEntries map, x.count ≤ e.count) ∧
        ∀ x ∈ pre, x.count < e.count) := by
  constructor
  · intro h
    rw [find_eq_scan_allEntries, h]
    rfl
  · intro hne
    rcases scanChain_spec (allEntries map) ([], 0) with ⟨_, hle⟩ |
      ⟨pre, e, post, hsplit, hval, _, hmax, hpre⟩
    · rcases List.exists_mem_of_ne_nil (allEntries map) hne with ⟨x, hx⟩
      have h1 := hpos x hx
      have h2 := hle x hx
      omega
    · exact ⟨pre, e, post, hsplit, by rw [find_eq_scan_allEntries, hval],
        hmax, hpre⟩

/-- Witness for `find_most_frequent_pair_spec`: the empty clause at the fresh
table, the non-empty clause at the one-entry table `mW`. -/
theorem find_most_frequent_pair_spec_witness :
    find_most_frequent_pair create_bpe_hashmap = ([], 0) ∧
    (∃ pre e post, allEntries mW = pre ++ e :: post ∧
      find_most_frequent_pair mW = (e.pair, e.count) ∧
      (∀ x ∈ allEntries mW, x.count ≤ e.count) ∧
      ∀ x ∈ pre, x.count < e.count) :=
  ⟨(find_most_frequent_pair_spec create_bpe_hashmap
      (by rw [allEntries_create]; simp)).1 allEntries_create,
   (find_most_frequent_pair_spec mW
      (by rw [allEntries_mW]; decide)).2 (by rw [allEntries_mW]; decide)⟩

/-! ### Chain-level behavior of `add_pair` -/

lemma incrInChain_none_iff (p : WStr) (l : List BPE_Pair) :
    incrInChain p l = none ↔ ∀ e ∈ l, e.pair ≠ p := by
  induction l with
  | nil => simp [incrInChain]
  | cons e rest ih =>
    by_cases h : e.pair = p
    · simp [incrInChain, h]
    · simp [incrInChain, h, Option.map_eq_none', ih]

lemma lookupChain_none_iff (p : WStr) (l : List BPE_Pair) :
    lookupChain p l = none ↔ ∀ e ∈ l, e.pair ≠ p := by
  induction l with
  | nil => simp [lookupChain]
  | cons e rest ih =>
    by_cases h : e.pair = p
    · simp [lookupChain, h]
    · simp [lookupChain, h, ih]

lemma incrInChain_none_iff_lookup (p : WStr) (l : List BPE_Pair) :
    incrInChain p l = none ↔ lookupChain p l = none := by
  rw [incrInChain_none_iff, lookupChain_none_iff]

lemma length_incrInChain (p : WStr) (l l' : List BPE_Pair)
    (h : incrInChain p l = some l') : l'.length = l.length := by
  induction l generalizing l' with
  | nil => simp [incrInChain] at h
  | cons e rest ih =>
    rw [incrInChain] at h
    by_cases he : e.pair = p
    · rw [if_pos he] at h
      obtain rfl := Option.some.inj h
      simp
    · rw [if_neg he] at h
      rcases Option.map_eq_some'.mp h with ⟨rest', hrest, rfl⟩
      simp [ih rest' hrest]

lemma keys_incrInChain (p : WStr) (l l' : List BPE_Pair)
    (h : incrInChain p l = some l') :
    l'.map (fun e => e.pair) = l.map (fun e => e.pair) := by
  induction l generalizing l' with
  | nil => simp [incrInChain] at h
  | cons e rest ih =>
    rw [incrInChain] at h
    by_cases he : e.pair = p
    · rw [if_pos he] at h
      obtain rfl := Option.some.inj h
      simp
    · rw [if_neg he] at h
      rcases Option.map_eq_some'.mp h with ⟨rest', hrest, rfl⟩
      simp [ih rest' hrest]

lemma mem_incrInChain (p : WStr) (l l' : List BPE_Pair)
    (h : incrInChain p l = some l') :
    ∀ x ∈ l', x ∈ l ∨ ∃ e ∈ l, x = { e with count := e.count + 1 } := by
  induction l generalizing l' with
  | nil => simp [incrInChain] at h
  | cons e rest ih =>
    rw [incrInChain] at h
    by_cases he : e.pair = p
    · rw [if_pos he] at h
      obtain rfl := Option.some.inj h
      intro x hx
      rcases List.mem_cons.mp hx with rfl | hm
      · exact Or.inr ⟨e, List.mem_cons_self _ _, rfl⟩
      · exact Or.inl (List.mem_cons_of_mem _ hm)
    · rw [if_neg he] at h
      rcases Option.map_eq_some'.mp h with ⟨rest', hrest, rfl⟩
      intro x hx
      rcases List.mem_cons.mp hx with rfl | hm
      · exact Or.inl (List.mem_cons_self _ _)
      · rcases ih rest' hrest x hm with hin | ⟨e', he', hx'⟩
        · exact Or.inl (List.mem_cons_of_mem _ hin)
        · exact Or.inr ⟨e', List.mem_cons_of_mem _ he', hx'⟩

lemma lookupChain_incrInChain (p : WStr) (l l' : List BPE_Pair)
    (h : incrInChain p l = some l') :
    ∀ e, lookupChain p l = some e →
      lookupChain p l' = some { e with count := e.count + 1 } := by
  induction l generalizing l' with
  | nil => simp [incrInChain] at h
  | cons x rest ih =>
    rw [incrInChain] at h
    by_cases hx : x.pair = p
    · rw [if_pos hx] at h
      obtain rfl := Option.some.inj h
      intro e he
      rw [lookupChain, if_pos hx] at he
      obtain rfl := Option.some.inj he
      rw [lookupChain, if_pos hx]
    · rw [if_neg hx] at h
      rcases Option.map_eq_some'.mp h with ⟨rest', hrest, rfl⟩
      intro e he
      rw [lookupChain, if_neg hx] at he
      rw [lookupChain, if_neg hx]
      exact ih rest' hrest e he

/-! ### Well-formedness of reachable tables -/

lemma hashW_lt (p : WStr) : hashW p < HASH_SIZE := by
  rw [hashW]
  exact Nat.mod_lt _ (by decide)

lemma tableWF_create : TableWF create_bpe_hashmap := by
  intro i
  exact ⟨by simp [create_bpe_hashmap], by simp [create_bpe_hashmap]⟩

lemma tableWF_add_pair (m : BPE_HashMap) (p : WStr) (tag : Nat)
    (h : TableWF m) : TableWF (add_pair m p tag) := by
  intro i
  by_cases hi : i = hashW p
  · subst hi
    rw [add_pair_apply_eq, addToBucket]
    cases hc : incrInChain p (m (hashW p)) with
    | some l' =>
      constructor
      · intro e he
        have hk := keys_incrInChain p _ _ hc
        have : e.pair ∈ l'.map (fun e => e.pair) := List.mem_map_of_mem _ he
        rw [hk] at this
        rcases List.mem_map.mp this with ⟨e', he', hpair⟩
        rw [← hpair]
        exact (h (hashW p)).1 e' he'
      · rw [keys_incrInChain p _ _ hc]
        exact (h (hashW p)).2
    | none =>
      constructor
      · intro e he
        rcases List.mem_cons.mp he with rfl | hm
        · rfl
        · exact (h (hashW p)).1 e hm
      · rw [List.map_cons, List.nodup_cons]
        refine ⟨?_, (h (hashW p)).2⟩
        intro hmem
        rcases List.mem_map.mp hmem with ⟨e', he', hpair⟩
        exact ((incrInChain_none_iff p _).mp hc e' he') hpair
  · rw [add_pair_apply_ne _ _ _ _ hi]
    exact h i

lemma reachable_tableWF (m : BPE_HashMap) (h : Reachable m) : TableWF m := by
  induction h with
  | init => exact tableWF_create
  | step map p tag _ ih => exact tableWF_add_pair map p tag ih

lemma reachable_counts_pos (m : BPE_HashMap) (h : Reachable m) :
    ∀ i, ∀ e ∈ m i, 0 < e.count := by
  induction h with
  | init => intro i e he; simp [create_bpe_hashmap] at he
  | step map p tag _ ih =>
    intro i e he
    by_cases hi : i = hashW p
    · subst hi
      rw [add_pair_apply_eq, addToBucket] at he
      revert he
      cases hc : incrInChain p (map (hashW p)) with
      | some l' =>
        intro he
        rcases mem_incrInChain p _ _ hc e he with hin | ⟨e', he', rfl⟩
        · exact ih _ e hin
        · simp
      | none =>
        intro he
        rcases List.mem_cons.mp he with rfl | hm
        · simp
        · exact ih _ e hm
    · rw [add_pair_apply_ne _ _ _ _ hi] at he
      exact ih i e he

lemma reachable_allEntries_pos (m : BPE_HashMap) (h : Reachable m) :
    ∀ e ∈ allEntries m, 0 < e.count := by
  intro e he
  rcases List.mem_flatMap.mp he with ⟨i, _, hei⟩
  exact reachable_counts_pos m h i e hei

/-! ### Key uniqueness across the table -/

lemma filter_flatMap (l : List Nat) (m : BPE_HashMap) (P : BPE_Pair → Bool) :
    (l.flatMap m).filter P = l.flatMap (fun i => (m i).filter P) := by
  induction l with
  | nil => rfl
  | cons a rest ih => simp [List.flatMap_cons, List.filter_append, ih]

lemma flatMap_nil_of (l : List Nat) (f : Nat → List BPE_Pair)
    (h : ∀ i ∈ l, f i = []) : l.flatMap f = [] := by
  induction l with
  | nil => rfl
  | cons a rest ih =>
    rw [List.flatMap_cons, h a (List.mem_cons_self _ _), List.nil_append]
    exact ih (fun i hi => h i (List.mem_cons_of_mem _ hi))

lemma flatMap_eq_single (l : List Nat) (f : Nat → List BPE_Pair) (j : Nat)
    (hmem : j ∈ l) (hnd : l.Nodup) (h : ∀ i ∈ l, i ≠ j → f i = []) :
    l.flatMap f = f j := by
  induction l with
  | nil => cases hmem
  | cons a rest ih =>
    rw [List.flatMap_cons]
    rcases List.mem_cons.mp hmem with rfl | hm
    · rw [flatMap_nil_of rest f (fun i hi =>
        h i (List.mem_cons_of_mem _ hi)
          (fun hij => (List.nodup_cons.mp hnd).1 (hij ▸ hi))), List.append_nil]
    · have ha : a ≠ j := fun haj => (List.nodup_cons.mp hnd).1 (haj ▸ hm)
      rw [h a (List.mem_cons_self _ _) ha, List.nil_append]
      exact ih hm (List.nodup_cons.mp hnd).2
        (fun i hi hij => h i (List.mem_cons_of_mem _ hi) hij)

lemma keyEntries_eq_bucket (m : BPE_HashMap) (hwf : TableWF m) (p : WStr) :
    keyEntries m p = (m (hashW p)).filter (fun e => e.pair = p) := by
  rw [keyEntries, allEntries, filter_flatMap]
  refine flatMap_eq_single _ _ (hashW p) (List.mem_range.mpr (hashW_lt p))
    (List.nodup_range _) ?_
  intro i _ hne
  rw [List.filter_eq_nil_iff]
  intro e he
  simp only [decide_eq_true_eq]
  intro hp
  exact hne (by rw [← (hwf i).1 e he, hp])

lemma filter_length_le_one (l : List BPE_Pair) (p : WStr)
    (hnd : (l.map (fun e => e.pair)).Nodup) :
    (l.filter (fun e => e.pair = p)).length ≤ 1 := by
  induction l with
  | nil => simp
  | cons e rest ih =>
    rw [List.map_cons, List.nodup_cons] at hnd
    by_cases he : e.pair = p
    · rw [List.filter_cons_of_pos (by simp [he])]
      have hrest : rest.filter (fun x => x.pair = p) = [] := by
        rw [List.filter_eq_nil_iff]
        intro x hx
        simp only [decide_eq_true_eq]
        intro hxp
        exact hnd.1 (List.mem_map.mpr ⟨x, hx, by rw [hxp, he]⟩)
      rw [hrest]
      simp
    · rw [List.filter_cons_of_neg (by simp [he])]
      exact ih hnd.2

/-! ### `add_pair` semantics at the level of lookups and sizes -/

lemma lookupPair_add_pair_present (m : BPE_HashMap) (p : WStr) (tag : Nat)
    (e : BPE_Pair) (h : lookupPair m p = some e) :
    lookupPair (add_pair m p tag) p = some { e with count := e.count + 1 } := by
  rw [lookupPair] at h
  rw [lookupPair, add_pair_apply_eq, addToBucket]
  cases hc : incrInChain p (m (hashW p)) with
  | some l' => exact lookupChain_incrInChain p _ _ hc e h
  | none =>
    rw [(incrInChain_none_iff_lookup p _).mp hc] at h
    cases h

lemma lookupPair_add_pair_absent (m : BPE_HashMap) (p : WStr) (tag : Nat)
    (h : lookupPair m p = none) :
    lookupPair (add_pair m p tag) p = some { pair := p, count := 1, id := tag } := by
  rw [lookupPair] at h
  rw [lookupPair, add_pair_apply_eq, addToBucket,
    (incrInChain_none_iff_lookup p _).mpr h, lookupChain, if_pos rfl]

lemma flatMap_congr (l : List Nat) (f g : Nat → List BPE_Pair)
    (h : ∀ i ∈ l, f i = g i) : l.flatMap f = l.flatMap g := by
  induction l with
  | nil => rfl
  | cons a rest ih =>
    rw [List.flatMap_cons, List.flatMap_cons, h a (List.mem_cons_self _ _),
      ih (fun i hi => h i (List.mem_cons_of_mem _ hi))]

lemma length_flatMap_update (l : List Nat) (f g : Nat → List BPE_Pair) (j : Nat)
    (hmem : j ∈ l) (hnd : l.Nodup) (hsame : ∀ i, i ≠ j → f i = g i) :
    (l.flatMap g).length + (f j).length = (l.flatMap f).length + (g j).length := by
  induction l with
  | nil => cases hmem
  | cons a rest ih =>
    rw [List.flatMap_cons, List.flatMap_cons, List.length_append,
      List.length_append]
    rcases List.mem_cons.mp hmem with rfl | hm
    · have : rest.flatMap f = rest.flatMap g :=
        flatMap_congr rest f g (fun i hi =>
          hsame i (fun hij => (List.nodup_cons.mp hnd).1 (hij ▸ hi)))
      rw [this]
      omega
    · have ha : a ≠ j := fun haj => (List.nodup_cons.mp hnd).1 (haj ▸ hm)
      rw [hsame a ha]
      have := ih hm (List.nodup_cons.mp hnd).2
      omega

lemma numEntries_add_pair (m : BPE_HashMap) (p : WStr) (tag : Nat) :
    numEntries (add_pair m p tag) + (m (hashW p)).length =
      numEntries m + (addToBucket p tag (m (hashW p))).length := by
  rw [numEntries, numEntries, allEntries, allEntries]
  have := length_flatMap_update (List.range HASH_SIZE) m (add_pair m p tag)
    (hashW p) (List.mem_range.mpr (hashW_lt p)) (List.nodup_range _)
    (fun i hi => (add_pair_apply_ne m p tag i hi).symm)
  rw [add_pair_apply_eq] at this
  omega

lemma numEntries_add_pair_present (m : BPE_HashMap) (p : WStr) (tag : Nat)
    (e : BPE_Pair) (h : lookupPair m p = some e) :
    numEntries (add_pair m p tag) = numEntries m := by
  rw [lookupPair] at h
  have hup := numEntries_add_pair m p tag
  cases hc : incrInChain p (m (hashW p)) with
  | some l' =>
    have hb : addToBucket p tag (m (hashW p)) = l' := by
      rw [addToBucket, hc]
    rw [hb] at hup
    have := length_incrInChain p _ _ hc
    omega
  | none =>
    rw [(incrInChain_none_iff_lookup p _).mp hc] at h
    cases h

lemma numEntries_add_pair_absent (m : BPE_HashMap) (p : WStr) (tag : Nat)
    (h : lookupPair m p = none) :
    numEntries (add_pair m p tag) = numEntries m + 1 := by
  rw [lookupPair] at h
  have hup := numEntries_add_pair m p tag
  rw [addToBucket, (incrInChain_none_iff_lookup p _).mpr h] at hup
  simp only [List.length_cons] at hup
  omega

/-- Claim C7: in every reachable table state each pair key is held by at most
one entry; `add_pair` on a key already present increments that entry's count
in place and leaves the total number of entries unchanged, and on an absent
key inserts a single new entry with count exactly 1. -/
theorem add_pair_unique_key (map : BPE_HashMap) (h : Reachable map) :
    (∀ p, keyCount map p ≤ 1) ∧
    (∀ p tag e, lookupPair map p = some e →
      lookupPair (add_pair map p tag) p = some { e with count := e.count + 1 } ∧
      numEntries (add_pair map p tag) = numEntries map) ∧
    (∀ p tag, lookupPair map p = none →
      lookupPair (add_pair map p tag) p = some { pair := p, count := 1, id := tag } ∧
      numEntries (add_pair map p tag) = numEntries map + 1) := by
  have hwf : TableWF map := reachable_tableWF map h
  refine ⟨?_, ?_, ?_⟩
  · intro p
    rw [keyCount, keyEntries_eq_bucket map hwf p]
    exact filter_length_le_one _ p (hwf (hashW p)).2
  · intro p tag e hl
    exact ⟨lookupPair_add_pair_present map p tag e hl,
      numEntries_add_pair_present map p tag e hl⟩
  · intro p tag hl
    exact ⟨lookupPair_add_pair_absent map p tag hl,
      numEntries_add_pair_absent map p tag hl⟩

/-- Witness for `add_pair_unique_key` at the one-entry reachable table `mW`:
re-adding `"a"` increments in place, adding `"b"` inserts with count 1. -/
theorem add_pair_unique_key_witness :
    keyCount mW ['a'] ≤ 1 ∧
    (lookupPair (add_pair mW ['a'] 7) ['a'] = some ⟨['a'], 2, 0⟩ ∧
     numEntries (add_pair mW ['a'] 7) = numEntries mW) ∧
    (lookupPair (add_pair mW ['b'] 3) ['b'] = some ⟨['b'], 1, 3⟩ ∧
     numEntries (add_pair mW ['b'] 3) = numEntries mW + 1) := by
  have hreach : Reachable mW := Reachable.step _ _ _ Reachable.init
  obtain ⟨h1, h2, h3⟩ := add_pair_unique_key mW hreach
  exact ⟨h1 ['a'], h2 ['a'] 7 ⟨['a'], 1, 0⟩ (by decide), h3 ['b'] 3 (by decide)⟩

/-! ### Aggregate counts recorded by the counting pass -/

lemma recordedCount_eq_chainSum (m : BPE_HashMap) (q : WStr) :
    recordedCount m q = chainSum q (allEntries m) := rfl

lemma chainSum_append (q : WStr) (l1 l2 : List BPE_Pair) :
    chainSum q (l1 ++ l2) = chainSum q l1 + chainSum q l2 := by
  simp [chainSum, List.filter_append]

lemma chainSum_cons_pos (q : WStr) (e : BPE_Pair) (l : List BPE_Pair)
    (h : e.pair = q) : chainSum q (e :: l) = e.count + chainSum q l := by
  rw [chainSum, List.filter_cons_of_pos (by simp [h]), List.map_cons,
    List.sum_cons]
  rfl

lemma chainSum_cons_neg (q : WStr) (e : BPE_Pair) (l : List BPE_Pair)
    (h : ¬e.pair = q) : chainSum q (e :: l) = chainSum q l := by
  rw [chainSum, List.filter_cons_of_neg (by simp [h])]
  rfl

lemma chainSum_incrInChain (q p : WStr) (l l' : List BPE_Pair)
    (h : incrInChain p l = some l') :
    chainSum q l' = chainSum q l + (if p = q then 1 else 0) := by
  induction l generalizing l' with
  | nil => simp [incrInChain] at h
  | cons e rest ih =>
    rw [incrInChain] at h
    by_cases he : e.pair = p
    · rw [if_pos he] at h
      obtain rfl := Option.some.inj h
      by_cases hq : p = q
      · have hpq : e.pair = q := by rw [he, hq]
        rw [chainSum_cons_pos q ⟨e.pair, e.count + 1, e.id⟩ rest hpq,
          chainSum_cons_pos q e rest hpq, if_pos hq]
        simp only []
        omega
      · have hpq : ¬e.pair = q := by rw [he]; exact hq
        rw [chainSum_cons_neg q ⟨e.pair, e.count + 1, e.id⟩ rest hpq,
          chainSum_cons_neg q e rest hpq, if_neg hq]
        omega
    · rw [if_neg he] at h
      rcases Option.map_eq_some'.mp h with ⟨rest', hrest, rfl⟩
      have hih := ih rest' hrest
      by_cases heq : e.pair = q
      · rw [chainSum_cons_pos q _ rest' heq, chainSum_cons_pos q _ rest heq, hih]
        omega
      · rw [chainSum_cons_neg q _ rest' heq, chainSum_cons_neg q _ rest heq, hih]

lemma chainSum_addToBucket (q p : WStr) (tag : Nat) (l : List BPE_Pair) :
    chainSum q (addToBucket p tag l) = chainSum q l + (if p = q then 1 else 0) := by
  cases hc : incrInChain p l with
  | some l' =>
    have hb : addToBucket p tag l = l' := by rw [addToBucket, hc]
    rw [hb]
    exact chainSum_incrInChain q p l l' hc
  | none =>
    have hb : addToBucket p tag l = { pair := p, count := 1, id := tag } :: l := by
      rw [addToBucket, hc]
    rw [hb]
    by_cases hq : p = q
    · simp [chainSum, List.filter_cons, hq]
      omega
    · simp [chainSum, List.filter_cons, hq]

lemma chainSum_flatMap_update (l : List Nat) (f g : Nat → List BPE_Pair)
    (j : Nat) (q : WStr) (hmem : j ∈ l) (hnd : l.Nodup)
    (hsame : ∀ i, i ≠ j → f i = g i) :
    chainSum q (l.flatMap g) + chainSum q (f j) =
      chainSum q (l.flatMap f) + chainSum q (g j) := by
  induction l with
  | nil => cases hmem
  | cons a rest ih =>
    rw [List.flatMap_cons, List.flatMap_cons, chainSum_append, chainSum_append]
    rcases List.mem_cons.mp hmem with rfl | hm
    · have : rest.flatMap f = rest.flatMap g :=
        flatMap_congr rest f g (fun i hi =>
          hsame i (fun hij => (List.nodup_cons.mp hnd).1 (hij ▸ hi)))
      rw [this]
      omega
    · have ha : a ≠ j := fun haj => (List.nodup_cons.mp hnd).1 (haj ▸ hm)
      rw [hsame a ha]
      have := ih hm (List.nodup_cons.mp hnd).2
      omega

lemma recordedCount_add_pair (m : BPE_HashMap) (p : WStr) (tag : Nat) (q : WStr) :
    recordedCount (add_pair m p tag) q =
      recordedCount m q + (if p = q then 1 else 0) := by
  have hupd := chainSum_flatMap_update (List.range HASH_SIZE) m (add_pair m p tag)
    (hashW p) q (List.mem_range.mpr (hashW_lt p)) (List.nodup_range _)
    (fun i hi => (add_pair_apply_ne m p tag i hi).symm)
  rw [add_pair_apply_eq] at hupd
  have hb := chainSum_addToBucket q p tag (m (hashW p))
  rw [recordedCount_eq_chainSum, recordedCount_eq_chainSum, allEntries, allEntries]
  omega

lemma recordedCount_addN (m : BPE_HashMap) (p : WStr) (tag n : Nat) (q : WStr) :
    recordedCount (addN m p tag n) q =
      recordedCount m q + (if p = q then n else 0) := by
  induction n generalizing m with
  | zero => simp [addN]
  | succ n ih =>
    rw [addN, ih, recordedCount_add_pair]
    by_cases hq : p = q
    · simp [hq]
      omega
    · simp [hq]

lemma recordedCount_foldl_addN (keys : List WStr) (m : BPE_HashMap)
    (tag n : Nat) (q : WStr) :
    recordedCount (keys.foldl (fun m p => addN m p tag n) m) q =
      recordedCount m q + n * keys.countP (fun p => p = q) := by
  induction keys generalizing m with
  | nil => simp
  | cons k rest ih =>
    rw [List.foldl_cons, ih, recordedCount_addN, List.countP_cons]
    by_cases hk : k = q
    · simp [hk, Nat.mul_add]
      omega
    · simp [hk]

lemma recordedCount_count_entry (m : BPE_HashMap) (i : Nat) (e : VocabEntry)
    (q : WStr) :
    recordedCount (count_entry m i e) q =
      recordedCount m q +
        e.freq * (adjacentPairs ((splitSymbols e.token).take 256)).countP
          (fun p => p = q) :=
  recordedCount_foldl_addN _ _ _ _ _

lemma recordedCount_create (q : WStr) :
    recordedCount create_bpe_hashmap q = 0 := by
  rw [recordedCount_eq_chainSum, allEntries_create]
  rfl

lemma recordedCount_foldl_count_entry (l : List (Nat × VocabEntry))
    (m : BPE_HashMap) (q : WStr) :
    recordedCount (l.foldl (fun m ie => count_entry m ie.1 ie.2) m) q =
      recordedCount m q +
        (l.map (fun ie => ie.2.freq *
          (adjacentPairs ((splitSymbols ie.2.token).take 256)).countP
            (fun p => p = q))).sum := by
  induction l generalizing m with
  | nil => simp
  | cons ie rest ih =>
    rw [List.foldl_cons, ih, recordedCount_count_entry, List.map_cons,
      List.sum_cons]
    omega

lemma recordedCount_count_pass (voc : List VocabEntry) (q : WStr) :
    recordedCount (count_pass voc) q =
      (voc.map (fun e => e.freq *
        (adjacentPairs ((splitSymbols e.token).take 256)).countP
          (fun p => p = q))).sum := by
  rw [count_pass, recordedCount_foldl_count_entry, recordedCount_create,
    Nat.zero_add]
  have h2 : voc.enum.map (fun ie => ie.2.freq *
      (adjacentPairs ((splitSymbols ie.2.token).take 256)).countP
        (fun p => p = q)) =
      (voc.enum.map Prod.snd).map (fun e => e.freq *
        (adjacentPairs ((splitSymbols e.token).take 256)).countP
          (fun p => p = q)) := by
    rw [List.map_map]
    rfl
  rw [h2, List.enum_map_snd]

/-! ### Splitting and joining symbol sequences -/

lemma splitAux_wf (s : WStr) : ∀ (cur : WStr), ' ' ∉ cur →
    ∀ x ∈ splitAux s cur, x ≠ [] ∧ ' ' ∉ x := by
  induction s with
  | nil =>
    intro cur hcur x hx
    rw [splitAux] at hx
    by_cases h : cur = []
    · rw [if_pos h] at hx
      cases hx
    · rw [if_neg h] at hx
      rw [List.mem_singleton.mp hx]
      constructor
      · simpa using h
      · simpa using hcur
  | cons c rest ih =>
    intro cur hcur x hx
    rw [splitAux] at hx
    by_cases hc : c = ' '
    · rw [if_pos hc] at hx
      by_cases h : cur = []
      · rw [if_pos h] at hx
        exact ih [] (List.not_mem_nil _) x hx
      · rw [if_neg h] at hx
        rcases List.mem_cons.mp hx with rfl | hm
        · constructor
          · simpa using h
          · simpa using hcur
        · exact ih [] (List.not_mem_nil _) x hm
    · rw [if_neg hc] at hx
      refine ih (c :: cur) ?_ x hx
      intro hmem
      rcases List.mem_cons.mp hmem with hsp | hsp
      · exact hc hsp.symm
      · exact hcur hsp

lemma splitSymbols_wf (s : WStr) : ∀ x ∈ splitSymbols s, x ≠ [] ∧ ' ' ∉ x :=
  splitAux_wf s [] (List.not_mem_nil _)

lemma splitAux_append_of_no_space (s : WStr) : ∀ (r cur : WStr), ' ' ∉ s →
    splitAux (s ++ r) cur = splitAux r (s.reverse ++ cur) := by
  induction s with
  | nil =>
    intro r cur _
    simp
  | cons c s' ih =>
    intro r cur hs
    have hc : ¬c = ' ' := fun h => hs (by rw [h]; exact List.mem_cons_self _ _)
    rw [List.cons_append, splitAux, if_neg hc,
      ih r (c :: cur) (fun hm => hs (List.mem_cons_of_mem _ hm))]
    simp [List.reverse_cons, List.append_assoc]

lemma splitSymbols_single (s : WStr) (hne : s ≠ []) (hsp : ' ' ∉ s) :
    splitSymbols s = [s] := by
  have h := splitAux_append_of_no_space s [] [] hsp
  rw [List.append_nil] at h
  rw [splitSymbols, h, splitAux, if_neg (by simpa using hne)]
  simp

lemma split_join (l : List WStr) (h : ∀ x ∈ l, x ≠ [] ∧ ' ' ∉ x) :
    splitSymbols (joinSymbols l) = l := by
  induction l with
  | nil => rfl
  | cons s rest ih =>
    have hs := h s (List.mem_cons_self _ _)
    cases rest with
    | nil => exact splitSymbols_single s hs.1 hs.2
    | cons t rest' =>
      have hj : joinSymbols (s :: t :: rest') =
          s ++ ' ' :: joinSymbols (t :: rest') := rfl
      rw [hj, splitSymbols,
        splitAux_append_of_no_space s (' ' :: joinSymbols (t :: rest')) [] hs.2,
        splitAux, if_pos rfl, if_neg (by simpa using hs.1)]
      rw [show ((s.reverse ++ []) : WStr).reverse = s by simp]
      rw [← splitSymbols, ih (fun x hx => h x (List.mem_cons_of_mem _ hx))]

lemma append_space_inj (s : WStr) : ∀ (A t B : WStr), ' ' ∉ s → ' ' ∉ A →
    s ++ ' ' :: t = A ++ ' ' :: B → s = A ∧ t = B := by
  induction s with
  | nil =>
    intro A t B _ hA h
    cases A with
    | nil => simpa using h
    | cons a A' =>
      rw [List.nil_append, List.cons_append] at h
      obtain ⟨h1, _⟩ := List.cons.inj h
      exact absurd (by rw [← h1]; exact List.mem_cons_self _ _ : ' ' ∈ a :: A') hA
  | cons c s' ih =>
    intro A t B hs hA h
    cases A with
    | nil =>
      rw [List.nil_append, List.cons_append] at h
      obtain ⟨h1, _⟩ := List.cons.inj h
      exact absurd (by rw [h1]; exact List.mem_cons_self _ _ : ' ' ∈ c :: s') hs
    | cons a A' =>
      rw [List.cons_append, List.cons_append] at h
      obtain ⟨h1, h2⟩ := List.cons.inj h
      obtain ⟨ih1, ih2⟩ := ih A' t B (fun hm => hs (List.mem_cons_of_mem _ hm))
        (fun hm => hA (List.mem_cons_of_mem _ hm)) h2
      exact ⟨by rw [h1, ih1], ih2⟩

lemma pairKey_inj (s t A B : WStr) (hs : ' ' ∉ s) (hA : ' ' ∉ A)
    (h : pairKey s t = pairKey A B) : s = A ∧ t = B :=
  append_space_inj s A t B hs hA h

/-! ### From table keys back to symbol pairs -/

lemma countP_adjacentPairs (syms : List WStr) (A B : WStr)
    (hsyms : ∀ x ∈ syms, x ≠ [] ∧ ' ' ∉ x) (hA : ' ' ∉ A) :
    (adjacentPairs syms).countP (fun p => p = pairKey A B) =
      countAdjOcc A B syms := by
  rw [adjacentPairs, countAdjOcc, List.countP_map]
  apply List.countP_congr
  intro q hq
  have hq1 : q.1 ∈ syms := (List.mem_zip hq).1
  have hq1sp : ' ' ∉ q.1 := (hsyms q.1 hq1).2
  by_cases h : pairKey q.1 q.2 = pairKey A B
  · obtain ⟨e1, e2⟩ := pairKey_inj q.1 q.2 A B hq1sp hA h
    simp [Function.comp, h, e1, e2]
  · have : ¬(q.1 = A ∧ q.2 = B) := by
      intro hand
      exact h (by rw [hand.1, hand.2])
    simp only [Function.comp]
    simp [h]
    intro e1 e2
    exact this ⟨e1, e2⟩

set_option maxRecDepth 8000 in
/-- Claim C5 (counterexample): take the single-entry store whose surface form
splits into 256 `a` symbols followed by one `b`.  The adjacent pair
`("a","b")` occurs once in the full symbol sequence (frequency 1), but the
counting pass records count 0 for its key: the pair sits at symbol positions
256/257, beyond the 256-symbol cap. -/
theorem count_pass_records_claim_cex :
    recordedCount (count_pass [e257]) (pairKey ['a'] ['b']) = 0 ∧
    ([e257].map (fun e => e.freq *
      countAdjOcc ['a'] ['b'] (splitSymbols e.token))).sum = 1 := by
  constructor
  · rw [recordedCount_count_pass]
    decide
  · decide

/-- Claim C5 (amended): for every store, after the counting pass the count
recorded for the key of pair `(A, B)` (symbols are space-free) equals the sum
over all entries of (adjacent occurrences of `(A, B)` among the first 256
symbols of the entry's sequence) times the entry's frequency; entries with
fewer than 2 symbols contribute nothing. -/
theorem count_pass_records (voc : List VocabEntry) (A B : WStr)
    (hA : ' ' ∉ A) (hB : ' ' ∉ B) :
    recordedCount (count_pass voc) (pairKey A B) =
      (voc.map (fun e => e.freq *
        countAdjOcc A B ((splitSymbols e.token).take 256))).sum := by
  rw [recordedCount_count_pass]
  congr 1
  apply List.map_congr_left
  intro e _
  congr 1
  exact countP_adjacentPairs _ A B
    (fun x hx => splitSymbols_wf e.token x (List.take_subset _ _ hx)) hA

/-- Witness for `count_pass_records` on the store `{"a b": 1}` and the pair
`("a","b")`. -/
theorem count_pass_records_witness :
    recordedCount (count_pass voc_ab) (pairKey ['a'] ['b']) = 1 := by
  rw [count_pass_records voc_ab ['a'] ['b'] (by decide) (by decide)]
  decide

/-- Claim C10: the counting step of an entry with more than 256 symbols
behaves exactly as if the entry's surface form were truncated to its first
256 symbols: symbols past the cap contribute nothing to the table. -/
theorem count_entry_truncates (m : BPE_HashMap) (i : Nat) (e : VocabEntry)
    (h : 256 < (splitSymbols e.token).length) :
    count_entry m i e =
      count_entry m i
        { e with token := joinSymbols ((splitSymbols e.token).take 256) } := by
  have hwf : ∀ x ∈ (splitSymbols e.token).take 256, x ≠ [] ∧ ' ' ∉ x :=
    fun x hx => splitSymbols_wf e.token x (List.take_subset _ _ hx)
  have hsplit : splitSymbols (joinSymbols ((splitSymbols e.token).take 256)) =
      (splitSymbols e.token).take 256 := split_join _ hwf
  rw [count_entry, count_entry]
  simp only [hsplit, List.take_take, min_self]

set_option maxRecDepth 8000 in
/-- Witness for `count_entry_truncates` at the 257-symbol entry `e257`. -/
theorem count_entry_truncates_witness :
    count_entry create_bpe_hashmap 0 e257 =
      count_entry create_bpe_hashmap 0
        { e257 with token := joinSymbols ((splitSymbols e257.token).take 256) } :=
  count_entry_truncates create_bpe_hashmap 0 e257 (by decide)

/-! ### The merge rewrite -/

lemma merge_symbols_length (best : WStr) : ∀ (l : List WStr),
    (merge_symbols best l).length + mergeFireCount best l = l.length
  | [] => by simp [merge_symbols, mergeFireCount]
  | [s] => by simp [merge_symbols, mergeFireCount]
  | s :: next :: rest => by
    have h1 : merge_symbols best (s :: next :: rest) =
        if pairKey s next = best then (s ++ next) :: merge_symbols best rest
        else s :: merge_symbols best (next :: rest) := rfl
    have h2 : mergeFireCount best (s :: next :: rest) =
        if pairKey s next = best then 1 + mergeFireCount best rest
        else mergeFireCount best (next :: rest) := rfl
    by_cases h : pairKey s next = best
    · have ih := merge_symbols_length best rest
      rw [h1, h2, if_pos h, if_pos h]
      simp only [List.length_cons]
      omega
    · have ih := merge_symbols_length best (next :: rest)
      rw [h1, h2, if_neg h, if_neg h]
      simp only [List.length_cons] at ih ⊢
      omega

lemma merge_symbols_wf (best : WStr) : ∀ (l : List WStr),
    (∀ x ∈ l, x ≠ [] ∧ ' ' ∉ x) →
    ∀ x ∈ merge_symbols best l, x ≠ [] ∧ ' ' ∉ x
  | [] => fun _ x hx => absurd hx (List.not_mem_nil x)
  | [s] => fun h x hx => by
    rw [show merge_symbols best [s] = [s] from rfl] at hx
    exact h x hx
  | s :: next :: rest => fun h x hx => by
    have h1 : merge_symbols best (s :: next :: rest) =
        if pairKey s next = best then (s ++ next) :: merge_symbols best rest
        else s :: merge_symbols best (next :: rest) := rfl
    rw [h1] at hx
    by_cases hk : pairKey s next = best
    · rw [if_pos hk] at hx
      rcases List.mem_cons.mp hx with rfl | hm
      · have hs := h s (List.mem_cons_self _ _)
        have hn := h next (List.mem_cons_of_mem _ (List.mem_cons_self _ _))
        constructor
        · intro hnil
          exact hs.1 (List.append_eq_nil.mp hnil).1
        · intro hmem
          rcases List.mem_append.mp hmem with hm | hm
          · exact hs.2 hm
          · exact hn.2 hm
      · exact merge_symbols_wf best rest
          (fun y hy => h y (List.mem_cons_of_mem _ (List.mem_cons_of_mem _ hy)))
          x hm
    · rw [if_neg hk] at hx
      rcases List.mem_cons.mp hx with rfl | hm
      · exact h x (List.mem_cons_self _ _)
      · exact merge_symbols_wf best (next :: rest)
          (fun y hy => h y (List.mem_cons_of_mem _ hy)) x hm

lemma split_merge_entry (best : WStr) (e : VocabEntry) :
    splitSymbols (merge_entry best e).token =
      merge_symbols best (splitSymbols e.token) := by
  rw [merge_entry]
  exact split_join _ (merge_symbols_wf best _ (splitSymbols_wf e.token))

/-- Claim C3 (counterexample): on the entry `"a b a b"` with selected pair
`("a","b")` the merge fires twice, and the symbol count drops from 4 to 2 —
it neither stays unchanged nor decreases by exactly 1. -/
theorem merge_symbol_count_cex :
    (splitSymbols (merge_entry (pairKey ['a'] ['b'])
        ⟨['a', ' ', 'b', ' ', 'a', ' ', 'b'], 0, 1⟩).token).length ≠
      (splitSymbols (['a', ' ', 'b', ' ', 'a', ' ', 'b'] : WStr)).length - 1 ∧
    (splitSymbols (merge_entry (pairKey ['a'] ['b'])
        ⟨['a', ' ', 'b', ' ', 'a', ' ', 'b'], 0, 1⟩).token).length ≠
      (splitSymbols (['a', ' ', 'b', ' ', 'a', ' ', 'b'] : WStr)).length := by
  decide

/-- Claim C3 (amended): one merge-application pass leaves the number of
entries and every entry's id and frequency unchanged, and each entry's
symbol count decreases by exactly the number of times the merge fires in
that entry (0 when it does not fire; possibly more than 1 when the pair
occurs several times). -/
theorem merge_pass_conservation (best : WStr) (voc : List VocabEntry) :
    (merge_pass best voc).length = voc.length ∧
    ∀ i (h1 : i < (merge_pass best voc).length) (h2 : i < voc.length),
      ((merge_pass best voc).get ⟨i, h1⟩).id = (voc.get ⟨i, h2⟩).id ∧
      ((merge_pass best voc).get ⟨i, h1⟩).freq = (voc.get ⟨i, h2⟩).freq ∧
      (splitSymbols ((merge_pass best voc).get ⟨i, h1⟩).token).length +
          mergeFireCount best (splitSymbols ((voc.get ⟨i, h2⟩).token)) =
        (splitSymbols ((voc.get ⟨i, h2⟩).token)).length := by
  refine ⟨by rw [merge_pass, List.length_map], ?_⟩
  intro i h1 h2
  have hget : (merge_pass best voc).get ⟨i, h1⟩ =
      merge_entry best (voc.get ⟨i, h2⟩) := by
    rw [List.get_eq_getElem, List.get_eq_getElem]
    simp [merge_pass]
  refine ⟨by rw [hget]; rfl, by rw [hget]; rfl, ?_⟩
  rw [hget, split_merge_entry]
  exact merge_symbols_length best _

/-- Witness for `merge_pass_conservation` on the one-entry store
`{"a b a b": 1}` with pair `("a","b")`: entry count, id and frequency are
unchanged, and the symbol count drops by the 2 firings. -/
theorem merge_pass_conservation_witness :
    (merge_pass (pairKey ['a'] ['b'])
        [⟨['a', ' ', 'b', ' ', 'a', ' ', 'b'], 5, 7⟩]).length = 1 ∧
    ((merge_pass (pairKey ['a'] ['b'])
        [⟨['a', ' ', 'b', ' ', 'a', ' ', 'b'], 5, 7⟩]).get ⟨0, by decide⟩).id = 5 ∧
    ((merge_pass (pairKey ['a'] ['b'])
        [⟨['a', ' ', 'b', ' ', 'a', ' ', 'b'], 5, 7⟩]).get ⟨0, by decide⟩).freq = 7 ∧
    (splitSymbols (((merge_pass (pairKey ['a'] ['b'])
          [⟨['a', ' ', 'b', ' ', 'a', ' ', 'b'], 5, 7⟩]).get
        ⟨0, by decide⟩).token)).length +
        mergeFireCount (pairKey ['a'] ['b'])
          (splitSymbols (['a', ' ', 'b', ' ', 'a', ' ', 'b'] : WStr)) =
      (splitSymbols (['a', ' ', 'b', ' ', 'a', ' ', 'b'] : WStr)).length := by
  obtain ⟨h1, h2⟩ := merge_pass_conservation (pairKey ['a'] ['b'])
    [⟨['a', ' ', 'b', ' ', 'a', ' ', 'b'], 5, 7⟩]
  have h3 := h2 0 (by decide) (by decide)
  exact ⟨h1, h3.1, h3.2.1, h3.2.2⟩

/-- Claim C6: matches of the selected pair are consumed greedily left to
right and are non-overlapping: an entry whose symbol sequence is
`[A, B, A, B]` is rewritten to `[AB, AB]`. -/
theorem merge_non_overlap (A B : WStr) (e : VocabEntry)
    (h : splitSymbols e.token = [A, B, A, B]) :
    splitSymbols (merge_entry (pairKey A B) e).token = [A ++ B, A ++ B] := by
  rw [split_merge_entry, h]
  have e1 : merge_symbols (pairKey A B) [A, B, A, B] =
      if pairKey A B = pairKey A B then
        (A ++ B) :: merge_symbols (pairKey A B) [A, B]
      else A :: merge_symbols (pairKey A B) [B, A, B] := rfl
  have e2 : merge_symbols (pairKey A B) [A, B] =
      if pairKey A B = pairKey A B then
        (A ++ B) :: merge_symbols (pairKey A B) []
      else A :: merge_symbols (pairKey A B) [B] := rfl
  rw [e1, if_pos rfl, e2, if_pos rfl]
  rfl

/-- Witness for `merge_non_overlap` on the entry `"a b a b"`. -/
theorem merge_non_overlap_witness :
    splitSymbols (merge_entry (pairKey ['a'] ['b'])
      ⟨['a', ' ', 'b', ' ', 'a', ' ', 'b'], 0, 1⟩).token =
      [['a', 'b'], ['a', 'b']] :=
  merge_non_overlap ['a'] ['b'] _ (by decide)

/-! ### Vocabulary upsert -/

lemma incrFreq_none_iff (t : WStr) (l : List VocabEntry) :
    incrFreq t l = none ↔ ∀ e ∈ l, e.token ≠ t := by
  induction l with
  | nil => simp [incrFreq]
  | cons e rest ih =>
    by_cases h : e.token = t
    · simp [incrFreq, h]
    · simp [incrFreq, h, Option.map_eq_none', ih]

lemma incrFreq_split (t : WStr) (pre : List VocabEntry) (e : VocabEntry)
    (post : List VocabEntry) (he : e.token = t)
    (hpre : ∀ x ∈ pre, x.token ≠ t) :
    incrFreq t (pre ++ e :: post) =
      some (pre ++ { e with freq := e.freq + 1 } :: post) := by
  induction pre with
  | nil => simp [incrFreq, he]
  | cons x rest ih =>
    rw [List.cons_append, incrFreq, if_neg (hpre x (List.mem_cons_self _ _)),
      ih (fun y hy => hpre y (List.mem_cons_of_mem _ hy))]
    rfl

lemma ids_incrFreq (t : WStr) (l l' : List VocabEntry)
    (h : incrFreq t l = some l') :
    l'.map (fun e => e.id) = l.map (fun e => e.id) := by
  induction l generalizing l' with
  | nil => simp [incrFreq] at h
  | cons e rest ih =>
    rw [incrFreq] at h
    by_cases he : e.token = t
    · rw [if_pos he] at h
      obtain rfl := Option.some.inj h
      simp
    · rw [if_neg he] at h
      rcases Option.map_eq_some'.mp h with ⟨rest', hrest, rfl⟩
      simp [ih rest' hrest]

lemma incrFreq_replicate_none (n : Nat) (e : VocabEntry) (t : WStr)
    (h : e.token ≠ t) : incrFreq t (List.replicate n e) = none := by
  induction n with
  | zero => rfl
  | succ n ih =>
    rw [List.replicate_succ, incrFreq, if_neg h, ih]
    rfl

lemma add_to_vocabulary_of_absent_full (voc : List VocabEntry) (t : WStr)
    (habs : ∀ e ∈ voc, e.token ≠ t) (hlen : ¬voc.length < MAX_VOCAB_SIZE) :
    add_to_vocabulary voc t = voc := by
  rw [add_to_vocabulary, (incrFreq_none_iff t voc).mpr habs]
  simp [hlen]

lemma fullVoc_length : fullVoc.length = MAX_VOCAB_SIZE := by
  rw [fullVoc]
  exact List.length_replicate _ _

lemma fullVoc_tokens : ∀ e ∈ fullVoc, e.token = ['a'] := by
  intro e he
  rw [fullVoc] at he
  rw [List.eq_of_mem_replicate he]

/-- Claim C8 (counterexample): when the store already holds
`MAX_VOCAB_SIZE = 50000` entries, upsert of an absent surface form does not
append the claimed new entry — it leaves the store unchanged. -/
theorem add_to_vocabulary_cap_cex :
    add_to_vocabulary fullVoc ['b'] = fullVoc ∧
    add_to_vocabulary fullVoc ['b'] ≠
      fullVoc ++ [{ token := ['b'], id := fullVoc.length, freq := 1 }] := by
  have habs : ∀ e ∈ fullVoc, e.token ≠ ['b'] := by
    intro e he
    rw [fullVoc_tokens e he]
    decide
  have h1 : add_to_vocabulary fullVoc ['b'] = fullVoc :=
    add_to_vocabulary_of_absent_full fullVoc ['b'] habs
      (by rw [fullVoc_length]; exact Nat.lt_irrefl _)
  refine ⟨h1, ?_⟩
  rw [h1]
  intro hcontra
  have hlen := congrArg List.length hcontra
  rw [List.length_append, List.length_singleton] at hlen
  revert hlen
  generalize fullVoc.length = n
  intro hlen
  omega

/-- Claim C8 (amended): for every store and surface form, upsert increments
the frequency of the first entry with an equal surface form when one is
present; otherwise, while the store is below `MAX_VOCAB_SIZE`, it appends a
new entry with frequency 1 and id equal to the store's size at the moment of
insertion.  Existing ids never change, so the first-seen form keeps the
lowest id. -/
theorem add_to_vocabulary_spec (voc : List VocabEntry) (t : WStr) :
    (∀ pre e post, voc = pre ++ e :: post → e.token = t →
      (∀ x ∈ pre, x.token ≠ t) →
      add_to_vocabulary voc t = pre ++ { e with freq := e.freq + 1 } :: post) ∧
    ((∀ e ∈ voc, e.token ≠ t) → voc.length < MAX_VOCAB_SIZE →
      add_to_vocabulary voc t =
        voc ++ [{ token := t, id := voc.length, freq := 1 }]) ∧
    ((add_to_vocabulary voc t).map (fun e => e.id) = voc.map (fun e => e.id) ∨
      (add_to_vocabulary voc t).map (fun e => e.id) =
        voc.map (fun e => e.id) ++ [voc.length]) := by
  refine ⟨?_, ?_, ?_⟩
  · intro pre e post hsplit he hpre
    subst hsplit
    rw [add_to_vocabulary, incrFreq_split t pre e post he hpre]
  · intro habs hlen
    rw [add_to_vocabulary, (incrFreq_none_iff t voc).mpr habs]
    simp [hlen]
  · rcases hinc : incrFreq t voc with _ | voc'
    · by_cases hlen : voc.length < MAX_VOCAB_SIZE
      · right
        rw [add_to_vocabulary, hinc]
        simp [hlen]
      · left
        rw [add_to_vocabulary, hinc]
        simp [hlen]
    · left
      rw [add_to_vocabulary, hinc]
      exact ids_incrFreq t voc voc' hinc

/-- Witness for `add_to_vocabulary_spec`: increment on a present form,
append with id = size on an absent form below capacity. -/
theorem add_to_vocabulary_spec_witness :
    add_to_vocabulary [⟨['a'], 0, 1⟩, ⟨['b'], 1, 1⟩] ['b'] =
      [⟨['a'], 0, 1⟩, ⟨['b'], 1, 2⟩] ∧
    add_to_vocabulary [⟨['a'], 0, 1⟩] ['b'] = [⟨['a'], 0, 1⟩, ⟨['b'], 1, 1⟩] ∧
    ((add_to_vocabulary [⟨['a'], 0, 1⟩] ['b']).map (fun e => e.id) =
        [(⟨['a'], 0, 1⟩ : VocabEntry)].map (fun e => e.id) ∨
      (add_to_vocabulary [⟨['a'], 0, 1⟩] ['b']).map (fun e => e.id) =
        [(⟨['a'], 0, 1⟩ : VocabEntry)].map (fun e => e.id) ++ [1]) := by
  refine ⟨?_, ?_, ?_⟩
  · have := (add_to_vocabulary_spec [⟨['a'], 0, 1⟩, ⟨['b'], 1, 1⟩] ['b']).1
      [⟨['a'], 0, 1⟩] ⟨['b'], 1, 1⟩ [] rfl (by decide) (by decide)
    simpa using this
  · have := (add_to_vocabulary_spec [⟨['a'], 0, 1⟩] ['b']).2.1
      (by decide) (by decide)
    simpa using this
  · exact (add_to_vocabulary_spec [⟨['a'], 0, 1⟩] ['b']).2.2

/-- Claim C9: when the vocabulary already holds `MAX_VOCAB_SIZE` entries,
upsert of a surface form not already present leaves the store entirely
unchanged. -/
theorem add_to_vocabulary_at_capacity (voc : List VocabEntry) (t : WStr)
    (hfull : voc.length = MAX_VOCAB_SIZE) (habs : ∀ e ∈ voc, e.token ≠ t) :
    add_to_vocabulary voc t = voc := by
  rw [add_to_vocabulary, (incrFreq_none_iff t voc).mpr habs]
  simp [hfull]

/-- Witness for `add_to_vocabulary_at_capacity` at a full store of 50000
copies of `"a"` and the absent form `"c"`. -/
theorem add_to_vocabulary_at_capacity_witness :
    add_to_vocabulary fullVoc ['c'] = fullVoc :=
  add_to_vocabulary_at_capacity fullVoc ['c'] fullVoc_length
    (by
      intro e he
      rw [fullVoc_tokens e he]
      decide)
